import Mathlib

/-!
Verification of the Image2Emoji photomosaic program (`emoji.py`).

The Python source is shallowly embedded: byte strings become `List Nat`,
Python slices `font[a:b]` become `slice font a b` (Python slicing clips at
the end of the sequence and never raises), `struct.unpack(">I", s)` becomes
`unpackBE32 s` (which is `none` exactly when the slice does not hold exactly
4 bytes, modelling the `struct.error` exception), and raised exceptions are
modelled with `Option`/flags as documented on each definition.
-/

namespace Image2Emoji

/-- Python byte-string slice `font[a:b]` (for `0 ≤ a ≤ b`): clips at the end,
never raises. -/
def slice (font : List Nat) (a b : Nat) : List Nat :=
  (font.drop a).take (b - a)

/-- `struct.unpack(">I", s)[0]`: big-endian unsigned 32-bit read.  `none`
models the `struct.error` raised when `s` is not exactly 4 bytes long. -/
def unpackBE32 (s : List Nat) : Option Nat :=
  if s.length = 4 then
    some (((s.getD 0 0 * 256 + s.getD 1 0) * 256 + s.getD 2 0) * 256 + s.getD 3 0)
  else
    none

/-- The 8-byte PNG signature `b'\x89PNG\r\n\x1a\n'`. -/
def pngSignature : List Nat := [137, 80, 78, 71, 13, 10, 26, 10]

/-- The ASCII bytes of the chunk type tag `b"IEND"`. -/
def iendTag : List Nat := [73, 69, 78, 68]

/-- The `while True` loop of `EmojiExtractor._extract_png`: starting at
`index` (just past the IHDR chunk), read each chunk's 4-byte length, append
the `length + 12` chunk bytes, and stop after appending the chunk whose type
tag is `IEND`.  `none` models the `struct.error` raised when fewer than 4
bytes remain for a length field. -/
def extractPngLoop (font : List Nat) (index : Nat) (acc : List Nat) : Option (List Nat) :=
  match h : unpackBE32 (slice font index (index + 4)) with
  | none => none
  | some len =>
    if slice font (index + 4) (index + 8) = iendTag then
      some (acc ++ slice font index (index + (len + 12)))
    else
      extractPngLoop font (index + (len + 12)) (acc ++ slice font index (index + (len + 12)))
termination_by font.length + 4 - index
decreasing_by
  simp only [unpackBE32] at h
  split at h
  · rename_i hlen
    have h1 : (slice font index (index + 4)).length = min (index + 4 - index) (font.length - index) := by
      simp [slice, List.length_take, List.length_drop]
    rw [hlen] at h1
    omega
  · exact absurd h (by simp)

/-- `EmojiExtractor._extract_png(position)`: read the IHDR length field at
`position + 8`, take the first `length + 20` bytes (signature plus IHDR
chunk), then walk the remaining chunks until `IEND`.  `none` models a
`struct.error` escaping the method. -/
def extractPng (font : List Nat) (position : Nat) : Option (List Nat) :=
  match unpackBE32 (slice font (position + 8) (position + 12)) with
  | none => none
  | some len =>
    extractPngLoop font (position + (len + 20)) (slice font position (position + (len + 20)))

/-- The positions of all occurrences of the PNG signature in `font`.  This
equals what `re.finditer(b'\x89PNG\r\n\x1a\n', font)` yields: the pattern
has no nontrivial self-overlap (the byte 137 occurs only at its start), so
the non-overlapping leftmost search finds every occurrence. -/
def sigPositions (font : List Nat) : List Nat :=
  (List.range font.length).filter (fun i => slice font i (i + 8) == pngSignature)

/-- One iteration of the `for location in re.finditer(...)` loop of
`EmojiExtractor.extract_emoji` at signature position `pos`, where `r` is
the outcome of the remaining iterations: read the width field (a
`struct.error`, modelled by `none`, aborts the loop: `([], false)`,
discarding everything the remaining iterations would have written), skip
the candidate when the width differs from `size`, otherwise run
`_extract_png` (its `struct.error` also aborts) and write the resulting
byte string before the remaining iterations run.  (`extractPng` is a pure
function, so passing its value for the skipped case is harmless.) -/
def candidateStep (font : List Nat) (size pos : Nat) (r : List (List Nat) × Bool) :
    List (List Nat) × Bool :=
  match unpackBE32 (slice font (pos + 16) (pos + 20)) with
  | none => ([], false)
  | some w =>
    if w = size then
      match extractPng font pos with
      | none => ([], false)
      | some png => (png :: r.1, r.2)
    else r

/-- The whole `for` loop of `extract_emoji` over a list of signature
positions.  Returns the list of PNG byte strings written to files (in write
order) and a flag that is `true` iff the loop completed without an
exception. -/
def extractEmojiGo (font : List Nat) (size : Nat) : List Nat → List (List Nat) × Bool
  | [] => ([], true)
  | pos :: rest => candidateStep font size pos (extractEmojiGo font size rest)

/-- `EmojiExtractor.extract_emoji(size)`, with the filesystem abstracted
away: the first component is the list of PNG byte strings written to the
numbered files `emoji/0.png`, `emoji/1.png`, ... in order, the second is
`true` iff the scan completed without raising. -/
def extractEmoji (font : List Nat) (size : Nat) : List (List Nat) × Bool :=
  extractEmojiGo font size (sigPositions font)

/-- One filesystem side effect of `extract_emoji`: creating the `emoji`
directory, or writing the byte string `contents` to `emoji/<n>.png`. -/
inductive FsEffect where
  | mkdirEmoji : FsEffect
  | writeFile : Nat → List Nat → FsEffect
deriving DecidableEq

/-- Number a list of written files sequentially starting at `n`, mirroring
the `counter` variable of `extract_emoji`. -/
def numberedWrites : Nat → List (List Nat) → List FsEffect
  | _, [] => []
  | n, f :: rest => FsEffect.writeFile n f :: numberedWrites (n + 1) rest

/-- The filesystem effect trace of `EmojiExtractor.extract_emoji(size)`:
`os.mkdir("emoji")` first when the directory does not already exist, then
one file write per extracted stream. -/
def extractEmojiTrace (dirExists : Bool) (font : List Nat) (size : Nat) : List FsEffect :=
  (if dirExists then [] else [FsEffect.mkdirEmoji]) ++
    numberedWrites 0 (extractEmoji font size).1

/-- A well-formed candidate position for `extract_emoji`: its width field
can be read, and if the width matches the requested size the chunk walk of
`_extract_png` completes.  `extract_emoji` completes without an exception
exactly when every signature position is a well-formed candidate. -/
def candidateOK (font : List Nat) (size pos : Nat) : Bool :=
  match unpackBE32 (slice font (pos + 16) (pos + 20)) with
  | none => false
  | some w => !(w == size) || (extractPng font pos).isSome

/-! ### Well-formed embedded PNG streams (the spec's data model) -/

/-- Big-endian 4-byte encoding of `n` (for `n < 2^32`). -/
def be32 (n : Nat) : List Nat :=
  [n / 16777216 % 256, n / 65536 % 256, n / 256 % 256, n % 256]

/-- A PNG chunk: 4-byte big-endian data length, 4-byte type tag, data,
4-byte CRC. -/
structure Chunk where
  ty : List Nat
  data : List Nat
  crc : List Nat

/-- The byte serialization of a chunk. -/
def Chunk.bytes (c : Chunk) : List Nat :=
  be32 c.data.length ++ (c.ty ++ (c.data ++ c.crc))

/-- Structural well-formedness of a chunk. -/
def Chunk.WF (c : Chunk) : Prop :=
  c.ty.length = 4 ∧ c.crc.length = 4 ∧ c.data.length < 4294967296

/-- A well-formed embedded PNG stream: signature, IHDR chunk (whose data
starts with the big-endian width), zero or more further chunks none of which
is `IEND`, and a final `IEND` chunk. -/
structure PngStream where
  width : Nat
  ihdr : Chunk
  mid : List Chunk
  iend : Chunk

/-- The byte serialization of a stream: signature through IEND inclusive. -/
def PngStream.bytes (s : PngStream) : List Nat :=
  pngSignature ++ (s.ihdr.bytes ++ ((s.mid.map Chunk.bytes).flatten ++ s.iend.bytes))

/-- Well-formedness of an embedded PNG stream, as the chunk scanner relies
on it: a 13-byte IHDR whose data begins with the encoded width, middle
chunks that are well formed and not tagged `IEND`, and a well-formed
zero-length `IEND` chunk. -/
def PngStream.WF (s : PngStream) : Prop :=
  s.ihdr.WF ∧ s.ihdr.ty = [73, 72, 68, 82] ∧ s.ihdr.data.length = 13 ∧
    s.ihdr.data.take 4 = be32 s.width ∧ s.width < 4294967296 ∧
    (∀ c ∈ s.mid, c.WF ∧ c.ty ≠ iendTag) ∧
    s.iend.WF ∧ s.iend.ty = iendTag ∧ s.iend.data = []

instance (s : PngStream) : Decidable s.WF := by
  unfold PngStream.WF Chunk.WF
  infer_instance

/-! ### Rasters and pixels

A pixel is the tuple PIL's `getpixel` returns: a list of 8-bit channel
values, of length 3 (RGB) or 4 (RGBA).  A raster is a list of rows of
pixels.  PIL itself is an external image codec: its decode and resample
operations are taken as parameters (`resize`, `thumbnail`), while its exact
per-pixel `paste`-with-mask blend is modelled with the standard integer
alpha-blend formula, which agrees with PIL at mask values 0 and 255 (the
only values the theorems below evaluate it at). -/

/-- A pixel: 3 (RGB) or 4 (RGBA) 8-bit channel values. -/
abbrev Pixel := List Nat

/-- A raster image: rows of pixels. -/
abbrev Raster := List (List Pixel)

/-- `image.getpixel((x, y))` for in-range coordinates, as an `Option`. -/
def pixelAt (img : Raster) (x y : Nat) : Option Pixel :=
  img[y]?.bind (fun row => row[x]?)

/-- `image.getpixel((x, y))`, total version used inside definitions (the
program only queries in-range coordinates). -/
def getpixel (img : Raster) (x y : Nat) : Pixel :=
  (img.getD y []).getD x []

/-- The alpha channel of a pixel as `image.convert('RGBA').split()[-1]`
sees it: the fourth channel, or 255 for an alpha-less pixel. -/
def alphaOf (p : Pixel) : Nat := p.getD 3 255

/-- One channel of `background.paste(image, mask=alpha)`: blend foreground
channel `fg` over background channel `bg` with mask value `m` (0..255).
Exact at `m = 0` (gives `bg`) and `m = 255` (gives `fg`). -/
def blendChan (bg fg m : Nat) : Nat :=
  (fg * m + bg * (255 - m) + 127) / 255

/-- `Image.new("RGBA", size, (255, 255, 255, bgAlpha)).paste(image,
mask=image.convert('RGBA').split()[-1])`: composite a raster onto a white
background of the given background alpha, using the raster's own alpha as
the paste mask.  The result is an RGBA raster. -/
def compositeOnWhite (bgAlpha : Nat) (img : Raster) : Raster :=
  img.map (List.map (fun p =>
    [blendChan 255 (p.getD 0 0) (alphaOf p),
     blendChan 255 (p.getD 1 0) (alphaOf p),
     blendChan 255 (p.getD 2 0) (alphaOf p),
     blendChan bgAlpha (alphaOf p) (alphaOf p)]))

/-- `convert("RGB")`: drop the alpha channel. -/
def toRGB (img : Raster) : Raster :=
  img.map (List.map (fun p => p.take 3))

/-- `image.size` of a raster: `(width, height)`. -/
def rasterSize (img : Raster) : Nat × Nat :=
  ((img.getD 0 []).length, img.length)

/-! ### Emoji tiles (`Emoji` class) -/

/-- One emoji tile: its display raster and its representative colour. -/
structure Emoji where
  image : Raster
  colour : Pixel
deriving DecidableEq

/-- `Emoji._process_emoji`: resize the tile to `size × size` when needed
(via the external LANCZOS `resize` capability), paste it onto a transparent
white square using its own alpha as mask, and drop the alpha channel unless
`transp` is set. -/
def processEmoji (resize : Raster → Nat → Nat → Raster) (img : Raster)
    (size : Nat) (transp : Bool) : Raster :=
  let image := if rasterSize img = (size, size) then img else resize img size size
  let newImage := compositeOnWhite 0 image
  if transp then newImage else toRGB newImage

/-- `Emoji._set_colour`: composite the original, unresized image onto an
opaque white background using its own alpha as mask, downsample the
composite to 1×1 with the external LANCZOS `resize` capability, and read
the single pixel. -/
def setColour (resize : Raster → Nat → Nat → Raster) (img : Raster) : Pixel :=
  getpixel (resize (compositeOnWhite 255 img) 1 1) 0 0

/-- `Emoji.__init__(image, size, transp)` on an already-decoded raster. -/
def Emoji.ofImage (resize : Raster → Nat → Nat → Raster) (img : Raster)
    (size : Nat) (transp : Bool) : Emoji :=
  { image := processEmoji resize img size transp
    colour := setColour resize img }

/-- Absolute difference of two channel values, Python's `abs(a - b)`. -/
def chanDist (a b : Nat) : Nat := ((a : Int) - (b : Int)).natAbs

/-- `Emoji.get_distance(pixel)`: the sum of absolute differences of the
first three channels of the tile's representative colour and the pixel. -/
def getDistance (e : Emoji) (pixel : Pixel) : Nat :=
  chanDist (e.colour.getD 0 0) (pixel.getD 0 0) +
    chanDist (e.colour.getD 1 0) (pixel.getD 1 0) +
    chanDist (e.colour.getD 2 0) (pixel.getD 2 0)

/-- The palette construction of `__main__`: `[Emoji(path, size, transp) for
path in path_list]`, with the external decode step made explicit: each
source is `some` raster or `none` for a file PIL cannot decode.  A `none`
raises out of the list comprehension, so the whole construction fails
(`none`) as soon as any tile fails to decode. -/
def buildPalette (resize : Raster → Nat → Nat → Raster) (size : Nat)
    (transp : Bool) : List (Option Raster) → Option (List Emoji)
  | [] => some []
  | none :: _ => none
  | some img :: rest =>
    (buildPalette resize size transp rest).map
      (fun pal => Emoji.ofImage resize img size transp :: pal)

/-! ### Source picture (`Picture` class) -/

/-- The PIL mode of the decoded source image.  The raster itself is carried
in its RGBA channel view; `mode` records the original mode string that
`Picture._process_image` branches on.  (The source compares the mode with
`image.mode is "P"`, an identity comparison that CPython's interning of
short string literals makes behave as equality.) -/
inductive PilMode where
  | RGB : PilMode
  | RGBA : PilMode
  | LA : PilMode
  | P : PilMode
deriving DecidableEq

/-- The ASCII bytes of the key string `"tran"` that `_process_image` tests
against `image.info`. -/
def tranKey : List Nat := [116, 114, 97, 110]

/-- The ASCII bytes of the key string `"transparency"`: the key PIL
actually stores in `image.info` for a palette image with transparency.
(`"tran"` is never a PIL info key, so the source's membership test
`"tran" in image.info` is false for every PIL-decoded image.) -/
def transparencyKey : List Nat :=
  [116, 114, 97, 110, 115, 112, 97, 114, 101, 110, 99, 121]

/-- `Picture._process_image`: if `image.mode in ("RGBA", "LA") or
(image.mode is "P" and "tran" in image.info)`, composite onto an opaque
white background using the image's own alpha as mask; then downsample with
the external aspect-preserving `thumbnail` capability.  `info` is the key
set of the `image.info` dict (keys as ASCII byte strings), so the
`"tran" in image.info` condition is the key-membership test
`tranKey ∈ info`.  Note the keep-alpha flag is not consulted here. -/
def processImage (thumbnail : Raster → Nat → Raster) (mode : PilMode)
    (info : List (List Nat)) (img : Raster) (maxSize : Nat) : Raster :=
  let image :=
    if mode = PilMode.RGBA ∨ mode = PilMode.LA ∨ (mode = PilMode.P ∧ tranKey ∈ info) then
      compositeOnWhite 255 img
    else img
  thumbnail image maxSize

/-- The canvas background colour of `Picture.__init__`:
`(255, 255, 255, 0)` (fully transparent) when `transparency` is set, else
opaque white `(255, 255, 255)`. -/
def canvasBackground (transparency : Bool) : Pixel :=
  if transparency then [255, 255, 255, 0] else [255, 255, 255]

/-- The state `Picture.__init__` builds: the processed working image and
the output canvas (uniformly filled with the background colour). -/
structure Picture where
  image : Raster
  width : Nat
  height : Nat
  canvas : Raster

/-- `Picture.__init__(image, max_size, emoji_size, transparency)` on an
already-decoded source raster. -/
def Picture.ofImage (thumbnail : Raster → Nat → Raster) (mode : PilMode)
    (info : List (List Nat)) (img : Raster) (maxSize emojiSize : Nat)
    (transparency : Bool) : Picture :=
  let processed := processImage thumbnail mode info img maxSize
  { image := processed
    width := (rasterSize processed).1
    height := (rasterSize processed).2
    canvas := List.replicate ((rasterSize processed).2 * emojiSize)
      (List.replicate ((rasterSize processed).1 * emojiSize)
        (canvasBackground transparency)) }

/-! ### The per-pixel mosaic loop of `__main__` -/

/-- Python `min(colour)` on a (nonempty) channel tuple. -/
def minChannel : Pixel → Nat
  | [] => 0
  | c :: rest => rest.foldl min c

/-- Python `min(emoji, key=f)`: the first element attaining the minimal
key, or `none` for the `ValueError` on an empty list. -/
def pyMinBy (f : Emoji → Nat) : List Emoji → Option Emoji
  | [] => none
  | e :: rest => some (rest.foldl (fun best x => if f x < f best then x else best) e)

/-- The match cache `previous_colours`: colour keys mapped to tiles.  Keys
are only ever inserted when absent, so the association list has distinct
keys, like the Python dict. -/
abbrev Cache := List (Pixel × Emoji)

/-- Dict lookup `previous_colours[colour]`, `none` for the `KeyError`. -/
def lookupColour : Cache → Pixel → Option Emoji
  | [], _ => none
  | (k, e) :: rest, c => if k = c then some e else lookupColour rest c

/-- One iteration of the per-pixel loop of `__main__` at a pixel of colour
`p`: skip when `min(colour) >= 252`; otherwise take the cached tile, or on
a cache miss scan the whole palette with `min(emoji, key=...)` and insert
the result.  Returns `none` for the `ValueError` crash when the palette is
empty and the pixel is not skipped; otherwise `some (placed, cache')` where
`placed` is the tile pasted at this cell (`none` when the cell is
skipped). -/
def stepPixel (pal : List Emoji) (cache : Cache) (p : Pixel) :
    Option (Option Emoji × Cache) :=
  if 252 ≤ minChannel p then some (none, cache)
  else
    match lookupColour cache p with
    | some e => some (some e, cache)
    | none =>
      (pyMinBy (fun e => getDistance e p) pal).map
        (fun e => (some e, (p, e) :: cache))

/-- The tile placed at a cell, if any: the cell receives no tile when it is
skipped (and when the run crashes on an empty palette). -/
def placedTile (pal : List Emoji) (cache : Cache) (p : Pixel) : Option Emoji :=
  (stepPixel pal cache p).bind (fun r => r.1)

/-- Run the per-pixel loop over a list of pixel colours, threading the
cache; `none` when some step crashes. -/
def runPixels (pal : List Emoji) : List Pixel → Cache → Option Cache
  | [], cache => some cache
  | p :: rest, cache =>
    match stepPixel pal cache p with
    | none => none
    | some r => runPixels pal rest r.2

/-- The cache invariant: every entry is exactly what the cache-miss
full-palette scan computes for its colour key. -/
def CacheInv (pal : List Emoji) (cache : Cache) : Prop :=
  ∀ ce ∈ cache, pyMinBy (fun e => getDistance e ce.1) pal = some ce.2

instance (pal : List Emoji) (cache : Cache) : Decidable (CacheInv pal cache) := by
  unfold CacheInv
  infer_instance

/-! ### Concrete inputs used by witnesses and counterexamples -/

/-- A minimal well-formed IHDR chunk declaring width `w`, height 1, bit
depth 8, colour type 0 (the scanner ignores the CRC). -/
def demoIhdr (w : Nat) : Chunk :=
  ⟨[73, 72, 68, 82], be32 w ++ [0, 0, 0, 1, 8, 0, 0, 0, 0], [0, 0, 0, 0]⟩

/-- A well-formed IEND chunk. -/
def demoIend : Chunk := ⟨iendTag, [], [0, 0, 0, 0]⟩

/-- A minimal 45-byte well-formed PNG stream of width `w`. -/
def demoStream (w : Nat) : PngStream := ⟨w, demoIhdr w, [], demoIend⟩

/-- A font blob holding two back-to-back embedded PNG streams, of widths 1
and 2. -/
def demoFont : List Nat := (demoStream 1).bytes ++ (demoStream 2).bytes

/-- A font blob whose first candidate matches width 1 but declares an IHDR
data length far beyond the end of the blob (a truncated/overlong chunk),
followed by a complete, well-formed width-1 stream. -/
def failFont : List Nat :=
  (pngSignature ++ (be32 4294967000 ++ ([73, 72, 68, 82] ++ be32 1))) ++
    (demoStream 1).bytes

/-- A 1×1 black tile with representative colour (0, 0, 0, 255). -/
def blackTile : Emoji := ⟨[[[0, 0, 0, 255]]], [0, 0, 0, 255]⟩

/-- A 1×1 white tile with representative colour (255, 255, 255, 255). -/
def whiteTile : Emoji := ⟨[[[255, 255, 255, 255]]], [255, 255, 255, 255]⟩

/-- A two-tile palette: a black tile and a white tile. -/
def demoPal : List Emoji := [blackTile, whiteTile]

/-- A concrete instantiation of the external resize capability (the
theorems hold for every such capability; witnesses fix one). -/
def idResize (img : Raster) (_w _h : Nat) : Raster := img

/-- A concrete instantiation of the external thumbnail capability. -/
def idThumbnail (img : Raster) (_m : Nat) : Raster := img

/-- A 1×1 fully transparent source raster. -/
def demoTransparent : Raster := [[[12, 34, 56, 0]]]

/-! ### Slice and chunk lemmas -/

theorem length_slice (font : List Nat) (a b : Nat) :
    (slice font a b).length = min (b - a) (font.length - a) := by
  simp [slice]

theorem unpackBE32_be32 {n : Nat} (h : n < 4294967296) :
    unpackBE32 (be32 n) = some n := by
  simp only [unpackBE32, be32]
  norm_num [List.getD]
  omega

theorem slice_sub {font w : List Nat} {p : Nat}
    (hw : slice font p (p + w.length) = w) (a m : Nat) (ham : a + m ≤ w.length) :
    slice font (p + a) (p + a + m) = (w.drop a).take m := by
  have hw' : (font.drop p).take w.length = w := by
    simpa [slice] using hw
  calc slice font (p + a) (p + a + m)
      = (font.drop (p + a)).take m := by
        simp [slice]
    _ = ((font.drop p).drop a).take m := by rw [List.drop_drop]
    _ = (w.drop a).take m := by
        conv_rhs => rw [← hw']
        rw [List.drop_take, List.take_take]
        congr 1
        omega

theorem slice_take {font w : List Nat} {p : Nat}
    (hw : slice font p (p + w.length) = w) (m : Nat) (hm : m ≤ w.length) :
    slice font p (p + m) = w.take m := by
  have h := slice_sub hw 0 m (by omega)
  simpa using h

theorem drop_len {u : List Nat} {n : Nat} (v : List Nat) (h : u.length = n) :
    (u ++ v).drop n = v := by
  subst h
  exact List.drop_left u v

theorem take_len {u : List Nat} {n : Nat} (v : List Nat) (h : u.length = n) :
    (u ++ v).take n = u := by
  subst h
  exact List.take_left u v

theorem Chunk.bytes_assoc (c : Chunk) (r : List Nat) :
    c.bytes ++ r = be32 c.data.length ++ (c.ty ++ (c.data ++ (c.crc ++ r))) := by
  simp [Chunk.bytes]

theorem be32_length (n : Nat) : (be32 n).length = 4 := rfl

theorem Chunk.bytes_length {c : Chunk} (h : c.WF) :
    c.bytes.length = c.data.length + 12 := by
  obtain ⟨hty, hcrc, _⟩ := h
  simp [Chunk.bytes, be32, hty, hcrc]
  omega

/-- Unfolding `extractPngLoop` when the length read fails. -/
theorem extractPngLoop_fail (font : List Nat) (k : Nat) (acc : List Nat)
    (h : unpackBE32 (slice font k (k + 4)) = none) :
    extractPngLoop font k acc = none := by
  rw [extractPngLoop]
  split
  · rfl
  · rename_i len heq
    rw [h] at heq
    cases heq

/-- Unfolding `extractPngLoop` at an `IEND` chunk. -/
theorem extractPngLoop_iend (font : List Nat) (k : Nat) (acc : List Nat) (len : Nat)
    (h : unpackBE32 (slice font k (k + 4)) = some len)
    (ht : slice font (k + 4) (k + 8) = iendTag) :
    extractPngLoop font k acc = some (acc ++ slice font k (k + (len + 12))) := by
  rw [extractPngLoop]
  split
  · rename_i heq
    rw [h] at heq
    cases heq
  · rename_i len' heq
    rw [h] at heq
    injection heq with hl
    subst hl
    rw [if_pos ht]

/-- Unfolding `extractPngLoop` at a non-`IEND` chunk. -/
theorem extractPngLoop_cont (font : List Nat) (k : Nat) (acc : List Nat) (len : Nat)
    (h : unpackBE32 (slice font k (k + 4)) = some len)
    (ht : slice font (k + 4) (k + 8) ≠ iendTag) :
    extractPngLoop font k acc
      = extractPngLoop font (k + (len + 12)) (acc ++ slice font k (k + (len + 12))) := by
  rw [extractPngLoop]
  split
  · rename_i heq
    rw [h] at heq
    cases heq
  · rename_i len' heq
    rw [h] at heq
    injection heq with hl
    subst hl
    rw [if_neg ht]

/-- The chunk walk of `_extract_png`: when the bytes at `k` are the
serialization of a list of non-`IEND` chunks followed by an `IEND` chunk,
the loop appends exactly those bytes to `acc` and stops at the `IEND`
chunk's end. -/
theorem extractPngLoop_run (font : List Nat) (iend : Chunk)
    (hiwf : iend.WF) (hity : iend.ty = iendTag) (hidata : iend.data = []) :
    ∀ (mid : List Chunk) (k : Nat) (acc : List Nat),
      (∀ c ∈ mid, c.WF ∧ c.ty ≠ iendTag) →
      slice font k (k + ((mid.map Chunk.bytes).flatten ++ iend.bytes).length)
        = (mid.map Chunk.bytes).flatten ++ iend.bytes →
      extractPngLoop font k acc
        = some (acc ++ ((mid.map Chunk.bytes).flatten ++ iend.bytes)) := by
  intro mid
  induction mid with
  | nil =>
    intro k acc _ hT
    simp only [List.map_nil, List.flatten_nil, List.nil_append] at hT ⊢
    obtain ⟨htyl, hcrcl, _⟩ := hiwf
    have hblen : iend.bytes.length = 12 := by
      rw [Chunk.bytes_length ⟨htyl, hcrcl, by omega⟩, hidata]
      rfl
    have h4 : slice font k (k + 4) = be32 0 := by
      have h := slice_take hT 4 (by omega)
      rw [h, Chunk.bytes, take_len _ (be32_length _), hidata]
      rfl
    have hunpack : unpackBE32 (slice font k (k + 4)) = some 0 := by
      rw [h4]
      exact unpackBE32_be32 (by norm_num)
    have htag : slice font (k + 4) (k + 8) = iendTag := by
      have h := slice_sub hT 4 4 (by omega)
      have h8 : k + 4 + 4 = k + 8 := by omega
      rw [h8] at h
      rw [h, Chunk.bytes, drop_len _ (be32_length _), take_len _ htyl, hity]
    rw [extractPngLoop_iend font k acc 0 hunpack htag]
    have h12 : slice font k (k + (0 + 12)) = iend.bytes := by
      have : k + (0 + 12) = k + iend.bytes.length := by omega
      rw [this, hT]
    rw [h12]
  | cons c mid ih =>
    intro k acc hmid hT
    obtain ⟨hcwf, hcty⟩ := hmid c (List.mem_cons_self c mid)
    have hmid' : ∀ x ∈ mid, x.WF ∧ x.ty ≠ iendTag :=
      fun x hx => hmid x (List.mem_cons_of_mem c hx)
    obtain ⟨hctyl, hccrcl, hcdlt⟩ := hcwf
    have hclen : c.bytes.length = c.data.length + 12 :=
      Chunk.bytes_length ⟨hctyl, hccrcl, hcdlt⟩
    have hTeq : ((c :: mid).map Chunk.bytes).flatten ++ iend.bytes
        = c.bytes ++ ((mid.map Chunk.bytes).flatten ++ iend.bytes) := by
      simp [List.append_assoc]
    rw [hTeq] at hT ⊢
    set R := (mid.map Chunk.bytes).flatten ++ iend.bytes with hR
    have hlenT : (c.bytes ++ R).length = c.bytes.length + R.length :=
      List.length_append _ _
    have h4 : slice font k (k + 4) = be32 c.data.length := by
      have h := slice_take hT 4 (by omega)
      rw [h, Chunk.bytes_assoc, take_len _ (be32_length _)]
    have hunpack : unpackBE32 (slice font k (k + 4)) = some c.data.length := by
      rw [h4]
      exact unpackBE32_be32 hcdlt
    have htag : slice font (k + 4) (k + 8) ≠ iendTag := by
      have h := slice_sub hT 4 4 (by omega)
      have h8 : k + 4 + 4 = k + 8 := by omega
      rw [h8] at h
      rw [h, Chunk.bytes_assoc, drop_len _ (be32_length _), take_len _ hctyl]
      exact hcty
    rw [extractPngLoop_cont font k acc c.data.length hunpack htag]
    have hacc : slice font k (k + (c.data.length + 12)) = c.bytes := by
      have h := slice_take hT c.bytes.length (by omega)
      rw [take_len _ rfl] at h
      rw [← hclen, h]
    have hRs : slice font (k + (c.data.length + 12))
        (k + (c.data.length + 12) + R.length) = R := by
      have h := slice_sub hT c.bytes.length R.length (by omega)
      rw [drop_len _ rfl, List.take_length, hclen] at h
      exact h
    rw [hacc]
    have := ih (k + (c.data.length + 12)) (acc ++ c.bytes) hmid' hRs
    rw [this, List.append_assoc]

theorem PngStream.bytes_def (s : PngStream) :
    s.bytes = pngSignature ++ (s.ihdr.bytes ++ ((s.mid.map Chunk.bytes).flatten ++ s.iend.bytes)) :=
  rfl

theorem PngStream.length_eq (s : PngStream) (hwf : s.WF) :
    s.bytes.length = 33 + ((s.mid.map Chunk.bytes).flatten ++ s.iend.bytes).length := by
  have hBlen : s.ihdr.bytes.length = 25 := by
    rw [Chunk.bytes_length hwf.1, hwf.2.2.1]
  rw [PngStream.bytes_def, List.length_append, List.length_append, hBlen]
  have : pngSignature.length = 8 := rfl
  omega

/-- On a well-formed stream laid out at position `p`, `_extract_png(p)`
returns exactly the stream's bytes, signature through IEND inclusive. -/
theorem extractPng_wf (font : List Nat) (p : Nat) (s : PngStream) (hwf : s.WF)
    (hs : slice font p (p + s.bytes.length) = s.bytes) :
    extractPng font p = some s.bytes := by
  obtain ⟨hihwf, hihty, hdata13, htake4, hwlt, hmidwf, hiendwf, hiendty, hienddata⟩ := hwf
  have hBlen : s.ihdr.bytes.length = 25 := by
    rw [Chunk.bytes_length hihwf, hdata13]
  have hTlen := PngStream.length_eq s
    ⟨hihwf, hihty, hdata13, htake4, hwlt, hmidwf, hiendwf, hiendty, hienddata⟩
  have hL : unpackBE32 (slice font (p + 8) (p + 12)) = some 13 := by
    have h := slice_sub hs 8 4 (by omega)
    have h12 : p + 8 + 4 = p + 12 := by omega
    rw [h12] at h
    rw [h, PngStream.bytes_def, drop_len _ (show pngSignature.length = 8 from rfl),
      Chunk.bytes_assoc, take_len _ (be32_length _), hdata13]
    exact unpackBE32_be32 (by norm_num)
  have hstep : extractPng font p
      = extractPngLoop font (p + 33) (slice font p (p + 33)) := by
    unfold extractPng
    rw [hL]
  rw [hstep]
  have hacc : slice font p (p + 33) = pngSignature ++ s.ihdr.bytes := by
    have h := slice_take hs 33 (by omega)
    rw [h, PngStream.bytes_def, show (33 : Nat) = pngSignature.length + 25 from rfl,
      List.take_append, take_len _ hBlen]
  have hRs : slice font (p + 33)
      (p + 33 + ((s.mid.map Chunk.bytes).flatten ++ s.iend.bytes).length)
      = (s.mid.map Chunk.bytes).flatten ++ s.iend.bytes := by
    have h := slice_sub hs 33 ((s.mid.map Chunk.bytes).flatten ++ s.iend.bytes).length
      (by omega)
    have hdrop : s.bytes.drop 33 = (s.mid.map Chunk.bytes).flatten ++ s.iend.bytes := by
      rw [PngStream.bytes_def, show (33 : Nat) = 8 + 25 from rfl, ← List.drop_drop,
        drop_len _ (show pngSignature.length = 8 from rfl), drop_len _ hBlen]
    rw [hdrop, List.take_length] at h
    exact h
  rw [hacc]
  rw [extractPngLoop_run font s.iend hiendwf hiendty hienddata s.mid (p + 33)
    (pngSignature ++ s.ihdr.bytes) hmidwf hRs]
  rw [List.append_assoc, ← PngStream.bytes_def]

/-- On a well-formed stream laid out at position `p`, the width check of
`extract_emoji` reads exactly the stream's declared width. -/
theorem extract_width_wf (font : List Nat) (p : Nat) (s : PngStream) (hwf : s.WF)
    (hs : slice font p (p + s.bytes.length) = s.bytes) :
    unpackBE32 (slice font (p + 16) (p + 20)) = some s.width := by
  obtain ⟨hihwf, hihty, hdata13, htake4, hwlt, hmidwf, hiendwf, hiendty, hienddata⟩ := hwf
  have hTlen := PngStream.length_eq s
    ⟨hihwf, hihty, hdata13, htake4, hwlt, hmidwf, hiendwf, hiendty, hienddata⟩
  have htyl : s.ihdr.ty.length = 4 := by rw [hihty]; rfl
  have h := slice_sub hs 16 4 (by omega)
  have h20 : p + 16 + 4 = p + 20 := by omega
  rw [h20] at h
  have hdrop : s.bytes.drop 16 = s.ihdr.data ++ (s.ihdr.crc ++
      ((s.mid.map Chunk.bytes).flatten ++ s.iend.bytes)) := by
    rw [PngStream.bytes_def, Chunk.bytes_assoc, show (16 : Nat) = 8 + 8 from rfl,
      ← List.drop_drop, drop_len _ (show pngSignature.length = 8 from rfl),
      show (8 : Nat) = 4 + 4 from rfl, ← List.drop_drop,
      drop_len _ (be32_length _), drop_len _ htyl]
  rw [h, hdrop, List.take_append_of_le_length (by omega), htake4]
  exact unpackBE32_be32 hwlt

theorem slice_oob {font : List Nat} {a : Nat} (b : Nat) (h : font.length ≤ a) :
    slice font a b = [] := by
  rw [slice, List.drop_eq_nil_of_le h, List.take_nil]

theorem extractEmojiGo_cons (font : List Nat) (size pos : Nat) (rest : List Nat) :
    extractEmojiGo font size (pos :: rest)
      = candidateStep font size pos (extractEmojiGo font size rest) := rfl

theorem candidateStep_fail (font : List Nat) (size pos : Nat) (r : List (List Nat) × Bool)
    (h : unpackBE32 (slice font (pos + 16) (pos + 20)) = none) :
    candidateStep font size pos r = ([], false) := by
  unfold candidateStep
  rw [h]

theorem candidateStep_skip (font : List Nat) (size pos : Nat) (r : List (List Nat) × Bool)
    (w : Nat) (h : unpackBE32 (slice font (pos + 16) (pos + 20)) = some w) (hw : w ≠ size) :
    candidateStep font size pos r = r := by
  unfold candidateStep
  rw [h]
  simp only [if_neg hw]

theorem candidateStep_take (font : List Nat) (size pos : Nat) (r : List (List Nat) × Bool)
    (w : Nat) (png : List Nat)
    (h : unpackBE32 (slice font (pos + 16) (pos + 20)) = some w) (hw : w = size)
    (hp : extractPng font pos = some png) :
    candidateStep font size pos r = (png :: r.1, r.2) := by
  unfold candidateStep
  rw [h]
  simp only [if_pos hw, hp]

theorem candidateStep_crash (font : List Nat) (size pos : Nat) (r : List (List Nat) × Bool)
    (w : Nat)
    (h : unpackBE32 (slice font (pos + 16) (pos + 20)) = some w) (hw : w = size)
    (hp : extractPng font pos = none) :
    candidateStep font size pos r = ([], false) := by
  unfold candidateStep
  rw [h]
  simp only [if_pos hw, hp]

/-- The extraction loop over a list of signature positions that start
well-formed streams emits exactly the streams whose width matches. -/
theorem extractEmojiGo_wf (font : List Nat) (size : Nat) :
    ∀ occs : List (Nat × PngStream),
      (∀ ps ∈ occs, ps.2.WF ∧ slice font ps.1 (ps.1 + ps.2.bytes.length) = ps.2.bytes) →
      extractEmojiGo font size (occs.map Prod.fst)
        = ((occs.filter (fun ps => ps.2.width == size)).map (fun ps => ps.2.bytes), true) := by
  intro occs
  induction occs with
  | nil => intro _; rfl
  | cons ps occs ih =>
    intro h
    obtain ⟨hwf, hsl⟩ := h ps (List.mem_cons_self _ _)
    have h' := fun x hx => h x (List.mem_cons_of_mem ps hx)
    have hw := extract_width_wf font ps.1 ps.2 hwf hsl
    rw [List.map_cons, extractEmojiGo_cons, ih h']
    by_cases hsz : ps.2.width = size
    · rw [candidateStep_take font size ps.1 _ ps.2.width ps.2.bytes hw hsz
        (extractPng_wf font ps.1 ps.2 hwf hsl)]
      rw [List.filter_cons_of_pos (by simpa using hsz), List.map_cons]
    · rw [candidateStep_skip font size ps.1 _ ps.2.width hw hsz]
      rw [List.filter_cons_of_neg (by simpa using hsz)]

/-- The extraction loop completes without an exception iff every remaining
candidate position is well behaved. -/
theorem extractEmojiGo_ok_iff (font : List Nat) (size : Nat) :
    ∀ l : List Nat,
      (extractEmojiGo font size l).2 = true ↔ ∀ p ∈ l, candidateOK font size p = true := by
  intro l
  induction l with
  | nil => simp [extractEmojiGo]
  | cons p rest ih =>
    rw [extractEmojiGo_cons]
    cases hu : unpackBE32 (slice font (p + 16) (p + 20)) with
    | none =>
      rw [candidateStep_fail font size p _ hu]
      have hcp : candidateOK font size p = false := by
        unfold candidateOK
        rw [hu]
      simp only [List.mem_cons, forall_eq_or_imp, hcp]
      simp
    | some w =>
      have hcp : candidateOK font size p = (!(w == size) || (extractPng font p).isSome) := by
        unfold candidateOK
        rw [hu]
      by_cases hsz : w = size
      · cases hpng : extractPng font p with
        | none =>
          rw [candidateStep_crash font size p _ w hu hsz hpng]
          rw [hpng, hsz] at hcp
          simp only [beq_self_eq_true, Bool.not_true, Option.isSome_none,
            Bool.or_self] at hcp
          simp only [List.mem_cons, forall_eq_or_imp, hcp]
          simp
        | some png =>
          rw [candidateStep_take font size p _ w png hu hsz hpng]
          rw [hpng] at hcp
          simp only [Option.isSome_some, Bool.or_true] at hcp
          simp only [List.mem_cons, forall_eq_or_imp, hcp]
          simp [ih]
      · rw [candidateStep_skip font size p _ w hu hsz]
        have hbeq : (w == size) = false := by
          simpa using hsz
        rw [hbeq] at hcp
        simp only [Bool.not_false, Bool.true_or] at hcp
        simp only [List.mem_cons, forall_eq_or_imp, hcp]
        simp [ih]

/-- `_extract_png` raises on the first candidate of `failFont`: the declared
chunk length jumps past the end of the blob and the next length read gets an
empty slice. -/
theorem extractPng_failFont : extractPng failFont 0 = none := by
  have h1 : unpackBE32 (slice failFont (0 + 8) (0 + 12)) = some 4294967000 := by decide
  unfold extractPng
  rw [h1]
  apply extractPngLoop_fail
  rw [slice_oob]
  · rfl
  · have : failFont.length = 65 := by decide
    omega

theorem sigPositions_demoFont : sigPositions demoFont = [0, 45] := by decide

theorem sigPositions_failFont : sigPositions failFont = [0, 20] := by decide

/-- The demo font extracts its width-1 stream (via the generic extraction
lemma, instantiated concretely). -/
theorem extractEmoji_demoFont : extractEmoji demoFont 1 = ([(demoStream 1).bytes], true) := by
  rw [extractEmoji, sigPositions_demoFont]
  have h := extractEmojiGo_wf demoFont 1 [(0, demoStream 1), (45, demoStream 2)] (by decide)
  simp only [List.map_cons, List.map_nil] at h
  rw [h]
  rfl

theorem mem_numberedWrites (bs : List Nat) :
    ∀ (files : List (List Nat)) (k m : Nat),
      FsEffect.writeFile m bs ∈ numberedWrites k files
        ↔ (k ≤ m ∧ files[m - k]? = some bs) := by
  intro files
  induction files with
  | nil =>
    intro k m
    simp [numberedWrites]
  | cons f rest ih =>
    intro k m
    simp only [numberedWrites, List.mem_cons]
    constructor
    · rintro (he | hm)
      · injection he with h1 h2
        subst h1
        subst h2
        simp
      · obtain ⟨hk, hget⟩ := (ih (k + 1) m).mp hm
        refine ⟨by omega, ?_⟩
        have hmk : m - k = (m - (k + 1)) + 1 := by omega
        rw [hmk, List.getElem?_cons_succ]
        exact hget
    · rintro ⟨hkm, hget⟩
      by_cases hmk : m = k
      · subst hmk
        simp only [Nat.sub_self, List.getElem?_cons_zero, Option.some.injEq] at hget
        left
        rw [hget]
      · right
        refine (ih (k + 1) m).mpr ⟨by omega, ?_⟩
        have hm1 : m - k = (m - (k + 1)) + 1 := by omega
        rw [hm1, List.getElem?_cons_succ] at hget
        exact hget

theorem mkdir_not_mem_numberedWrites :
    ∀ (files : List (List Nat)) (k : Nat), FsEffect.mkdirEmoji ∉ numberedWrites k files := by
  intro files
  induction files with
  | nil => intro k; simp [numberedWrites]
  | cons f rest ih =>
    intro k
    simp only [numberedWrites, List.mem_cons]
    rintro (he | hm)
    · cases he
    · exact ih (k + 1) hm

/-! ### Pixel, matcher and compositor lemmas -/

theorem le_foldl_min_iff (n : Nat) :
    ∀ (rest : List Nat) (c : Nat),
      n ≤ List.foldl min c rest ↔ n ≤ c ∧ ∀ x ∈ rest, n ≤ x := by
  intro rest
  induction rest with
  | nil => intro c; simp
  | cons x rest ih =>
    intro c
    simp only [List.foldl_cons, List.mem_cons, forall_eq_or_imp]
    rw [ih (min c x)]
    rw [le_min_iff]
    tauto

theorem minChannel_ge_iff {p : Pixel} (hp : p ≠ []) (n : Nat) :
    n ≤ minChannel p ↔ ∀ c ∈ p, n ≤ c := by
  cases p with
  | nil => cases hp rfl
  | cons c rest =>
    simp only [minChannel, List.mem_cons, forall_eq_or_imp]
    exact le_foldl_min_iff n rest c

theorem foldl_minBy_spec (f : Emoji → Nat) :
    ∀ (l : List Emoji) (b : Emoji),
      (List.foldl (fun best x => if f x < f best then x else best) b l = b
        ∨ List.foldl (fun best x => if f x < f best then x else best) b l ∈ l) ∧
      f (List.foldl (fun best x => if f x < f best then x else best) b l) ≤ f b ∧
      ∀ x ∈ l, f (List.foldl (fun best x => if f x < f best then x else best) b l) ≤ f x := by
  intro l
  induction l with
  | nil => intro b; simp
  | cons x rest ih =>
    intro b
    simp only [List.foldl_cons, List.mem_cons, forall_eq_or_imp]
    by_cases hx : f x < f b
    · rw [if_pos hx]
      obtain ⟨hm, hb, hall⟩ := ih x
      refine ⟨?_, ?_, ?_, ?_⟩
      · cases hm with
        | inl h => exact Or.inr (Or.inl h)
        | inr h => exact Or.inr (Or.inr h)
      · exact le_of_lt (lt_of_le_of_lt hb hx)
      · exact hb
      · exact hall
    · rw [if_neg hx]
      obtain ⟨hm, hb, hall⟩ := ih b
      refine ⟨?_, ?_, ?_, ?_⟩
      · cases hm with
        | inl h => exact Or.inl h
        | inr h => exact Or.inr (Or.inr h)
      · exact hb
      · exact le_trans hb (Nat.le_of_not_lt hx)
      · exact hall

theorem pyMinBy_spec {f : Emoji → Nat} {l : List Emoji} {e : Emoji}
    (h : pyMinBy f l = some e) : e ∈ l ∧ ∀ x ∈ l, f e ≤ f x := by
  cases l with
  | nil => cases h
  | cons b rest =>
    simp only [pyMinBy, Option.some.injEq] at h
    subst h
    obtain ⟨hm, hb, hall⟩ := foldl_minBy_spec f rest b
    constructor
    · cases hm with
      | inl h => rw [h]; exact List.mem_cons_self b rest
      | inr h => exact List.mem_cons_of_mem b h
    · intro x hx
      cases List.mem_cons.mp hx with
      | inl h => rw [h]; exact hb
      | inr h => exact hall x h

theorem pyMinBy_isSome {l : List Emoji} (hl : l ≠ []) (f : Emoji → Nat) :
    (pyMinBy f l).isSome = true := by
  cases l with
  | nil => cases hl rfl
  | cons b rest => rfl

theorem lookupColour_mem :
    ∀ (cache : Cache) (c : Pixel) (e : Emoji),
      lookupColour cache c = some e → (c, e) ∈ cache := by
  intro cache
  induction cache with
  | nil => intro c e h; cases h
  | cons ke rest ih =>
    intro c e h
    obtain ⟨k, e'⟩ := ke
    simp only [lookupColour] at h
    split at h
    · rename_i hk
      injection h with h
      subst h
      subst hk
      exact List.mem_cons_self _ _
    · exact List.mem_cons_of_mem _ (ih c e h)

theorem placedTile_none_iff (pal : List Emoji) (cache : Cache) (p : Pixel)
    (hpal : pal ≠ []) :
    placedTile pal cache p = none ↔ 252 ≤ minChannel p := by
  unfold placedTile stepPixel
  by_cases h : 252 ≤ minChannel p
  · rw [if_pos h]
    simp [h]
  · rw [if_neg h]
    cases hl : lookupColour cache p with
    | some e => simp [h]
    | none =>
      cases hm : pyMinBy (fun e => getDistance e p) pal with
      | none =>
        have := pyMinBy_isSome hpal (fun e => getDistance e p)
        rw [hm] at this
        cases this
      | some e => simp [h]

theorem stepPixel_preserves (pal : List Emoji) (cache : Cache) (p : Pixel)
    (r : Option Emoji × Cache) (hinv : CacheInv pal cache)
    (h : stepPixel pal cache p = some r) : CacheInv pal r.2 := by
  unfold stepPixel at h
  split at h
  · injection h with h
    subst h
    exact hinv
  · cases hl : lookupColour cache p with
    | some e =>
      rw [hl] at h
      injection h with h
      subst h
      exact hinv
    | none =>
      rw [hl] at h
      cases hm : pyMinBy (fun e => getDistance e p) pal with
      | none => rw [hm] at h; cases h
      | some e =>
        rw [hm] at h
        injection h with h
        subst h
        intro ce hce
        cases List.mem_cons.mp hce with
        | inl hc => subst hc; exact hm
        | inr hc => exact hinv ce hc

theorem runPixels_preserves (pal : List Emoji) :
    ∀ (ps : List Pixel) (cache cache' : Cache), CacheInv pal cache →
      runPixels pal ps cache = some cache' → CacheInv pal cache' := by
  intro ps
  induction ps with
  | nil =>
    intro cache cache' hinv h
    injection h with h
    subst h
    exact hinv
  | cons p rest ih =>
    intro cache cache' hinv h
    unfold runPixels at h
    cases hs : stepPixel pal cache p with
    | none => rw [hs] at h; cases h
    | some r =>
      rw [hs] at h
      exact ih r.2 cache' (stepPixel_preserves pal cache p r hinv hs) h

theorem pixelAt_compositeOnWhite (bgA : Nat) (img : Raster) (x y : Nat) :
    pixelAt (compositeOnWhite bgA img) x y
      = (pixelAt img x y).map (fun p =>
          [blendChan 255 (p.getD 0 0) (alphaOf p),
           blendChan 255 (p.getD 1 0) (alphaOf p),
           blendChan 255 (p.getD 2 0) (alphaOf p),
           blendChan bgA (alphaOf p) (alphaOf p)]) := by
  unfold pixelAt compositeOnWhite
  rw [List.getElem?_map]
  cases img[y]? with
  | none => rfl
  | some row =>
    simp [List.getElem?_map]

theorem blendChan_zero (bg fg : Nat) : blendChan bg fg 0 = bg := by
  unfold blendChan
  omega

/-- A fully transparent source pixel becomes pure white (with the
background's alpha) under a white-background paste with the image's own
alpha as mask. -/
theorem compositeOnWhite_transparent (bgA : Nat) (img : Raster) (x y : Nat) (p : Pixel)
    (hp : pixelAt img x y = some p) (ha : alphaOf p = 0) :
    pixelAt (compositeOnWhite bgA img) x y = some [255, 255, 255, bgA] := by
  rw [pixelAt_compositeOnWhite, hp]
  simp [ha, blendChan_zero]

theorem buildPalette_none_iff (resize : Raster → Nat → Nat → Raster)
    (size : Nat) (transp : Bool) :
    ∀ sources : List (Option Raster),
      buildPalette resize size transp sources = none ↔ none ∈ sources := by
  intro sources
  induction sources with
  | nil => simp [buildPalette]
  | cons s rest ih =>
    cases s with
    | none => simp [buildPalette]
    | some img => simp [buildPalette, ih]

/-! ### The claims -/

/-- C1: for every font blob whose PNG-signature occurrences are exactly the
start positions of embedded well-formed PNG streams, `extract_emoji(size)`
emits exactly the byte streams (signature through IEND chunk inclusive) of
the streams whose IHDR width field equals `size`, in scan order, completing
without error: a candidate whose width mismatches is skipped without
blocking later streams, and every emitted stream is one of the hypothesised
embedded streams, so emitted streams overlap only if the embedded ones
do. -/
theorem c1_extraction_exact (font : List Nat) (size : Nat)
    (occs : List (Nat × PngStream))
    (hpos : sigPositions font = occs.map Prod.fst)
    (hwf : ∀ ps ∈ occs, ps.2.WF ∧ slice font ps.1 (ps.1 + ps.2.bytes.length) = ps.2.bytes) :
    extractEmoji font size
      = ((occs.filter (fun ps => ps.2.width == size)).map (fun ps => ps.2.bytes), true) := by
  rw [extractEmoji, hpos]
  exact extractEmojiGo_wf font size occs hwf

/-- C1 witness: on the demo font holding a width-1 and a width-2 stream,
extraction at each target size emits exactly the matching stream. -/
theorem c1_extraction_exact_witness :
    extractEmoji demoFont 1 = ([(demoStream 1).bytes], true) ∧
    extractEmoji demoFont 2 = ([(demoStream 2).bytes], true) := by
  constructor
  · have h := c1_extraction_exact demoFont 1 [(0, demoStream 1), (45, demoStream 2)]
      (by decide) (by decide)
    rw [h]
    rfl
  · have h := c1_extraction_exact demoFont 2 [(0, demoStream 1), (45, demoStream 2)]
      (by decide) (by decide)
    rw [h]
    rfl

/-- C2 counterexample: `failFont`'s first candidate matches the requested
width but declares a chunk length that overruns the blob; the resulting
`struct.error` aborts the whole extraction (flag `false`, nothing emitted)
even though a complete well-formed width-1 stream follows at position 20 —
the truncated candidate is not "simply dropped" and later candidates are
lost. -/
theorem c2_truncation_counterexample :
    extractEmoji failFont 1 = ([], false) ∧
    extractPng failFont 20 = some (demoStream 1).bytes := by
  constructor
  · rw [extractEmoji, sigPositions_failFont, extractEmojiGo_cons]
    have hw : unpackBE32 (slice failFont (0 + 16) (0 + 20)) = some 1 := by decide
    exact candidateStep_crash failFont 1 0 _ 1 hw rfl extractPng_failFont
  · exact extractPng_wf failFont 20 (demoStream 1) (by decide) (by decide)

/-- C2 (amended): extraction always terminates and never reads out of
bounds (Python slices clip), but a truncated candidate is not dropped
individually: the `struct.error` aborts the entire extraction, losing all
later candidates; the scan completes without error iff every signature
position has a readable width field and every size-matching candidate a
complete chunk walk. -/
theorem c2_completion_iff (font : List Nat) (size : Nat) :
    (extractEmoji font size).2 = true ↔
      ∀ p ∈ sigPositions font, candidateOK font size p = true := by
  rw [extractEmoji]
  exact extractEmojiGo_ok_iff font size (sigPositions font)

/-- C2 witness: extraction at a size with no matching stream completes
without error on the demo font. -/
theorem c2_completion_iff_witness : (extractEmoji demoFont 3).2 = true :=
  (c2_completion_iff demoFont 3).mpr (by decide)

/-- C3: a grid cell receives no tile exactly when every channel of the
source pixel is at least 252; the cell then keeps the canvas background,
which is transparent white for keep-alpha and opaque white otherwise. -/
theorem c3_background_skip (pal : List Emoji) (cache : Cache) (p : Pixel)
    (hp : p ≠ []) (hpal : pal ≠ []) :
    (placedTile pal cache p = none ↔ ∀ c ∈ p, 252 ≤ c) ∧
    canvasBackground true = [255, 255, 255, 0] ∧
    canvasBackground false = [255, 255, 255] := by
  refine ⟨?_, rfl, rfl⟩
  rw [placedTile_none_iff pal cache p hpal]
  exact minChannel_ge_iff hp 252

/-- C3 witness: (255,255,255) and (253,253,253) place no tile;
(251,251,251) places one. -/
theorem c3_background_skip_witness :
    placedTile demoPal [] [255, 255, 255] = none ∧
    placedTile demoPal [] [253, 253, 253] = none ∧
    ¬ placedTile demoPal [] [251, 251, 251] = none := by
  refine ⟨?_, ?_, ?_⟩
  · exact ((c3_background_skip demoPal [] _ (by decide) (by decide)).1).mpr (by decide)
  · exact ((c3_background_skip demoPal [] _ (by decide) (by decide)).1).mpr (by decide)
  · intro hnone
    have hall := ((c3_background_skip demoPal [] _ (by decide) (by decide)).1).mp hnone
    exact absurd (hall 251 (by decide)) (by decide)

/-- C4: every cache reachable in a run maps each colour key to exactly the
tile the full-palette scan computes — hence to a tile of the palette at
minimal L1 distance — and a cache hit returns exactly what the cache-miss
scan would. -/
theorem c4_match_cache_invariant (pal : List Emoji) :
    (∀ (cache : Cache) (p : Pixel) (r : Option Emoji × Cache),
      CacheInv pal cache → stepPixel pal cache p = some r → CacheInv pal r.2) ∧
    (∀ (ps : List Pixel) (cache cache' : Cache),
      CacheInv pal cache → runPixels pal ps cache = some cache' → CacheInv pal cache') ∧
    (∀ (cache : Cache) (c : Pixel) (e : Emoji), CacheInv pal cache → (c, e) ∈ cache →
      e ∈ pal ∧ ∀ t ∈ pal, getDistance e c ≤ getDistance t c) ∧
    (∀ (cache : Cache) (c : Pixel) (e : Emoji), CacheInv pal cache →
      lookupColour cache c = some e →
      pyMinBy (fun t => getDistance t c) pal = some e) := by
  refine ⟨stepPixel_preserves pal, runPixels_preserves pal, ?_, ?_⟩
  · intro cache c e hinv hmem
    exact pyMinBy_spec (hinv (c, e) hmem)
  · intro cache c e hinv hl
    exact hinv (c, e) (lookupColour_mem cache c e hl)

/-- C4 witness: a concrete valid cache on the black/white palette; the hit
for (10,10,10) equals the full scan's choice, the black tile. -/
theorem c4_match_cache_invariant_witness :
    CacheInv demoPal [([10, 10, 10], blackTile)] ∧
    pyMinBy (fun t => getDistance t [10, 10, 10]) demoPal = some blackTile := by
  refine ⟨by decide, ?_⟩
  exact (c4_match_cache_invariant demoPal).2.2.2 [([10, 10, 10], blackTile)]
    [10, 10, 10] blackTile (by decide) (by decide)

/-- C5: `get_distance` sums the absolute per-channel differences over the
first three (RGB) channels only, ignoring any fourth (alpha) channel of
either the tile's representative colour or the queried pixel; on the
black/white 2-tile palette, query (10,10,10) selects the black tile
(distance 30 versus 735). -/
theorem c5_distance_rgb_only :
    (∀ (img : Raster) (c0 c1 c2 p0 p1 p2 : Nat) (cr pr : List Nat),
      getDistance ⟨img, c0 :: c1 :: c2 :: cr⟩ (p0 :: p1 :: p2 :: pr)
        = chanDist c0 p0 + chanDist c1 p1 + chanDist c2 p2) ∧
    pyMinBy (fun e => getDistance e [10, 10, 10]) demoPal = some blackTile ∧
    getDistance blackTile [10, 10, 10] = 30 ∧
    getDistance whiteTile [10, 10, 10] = 735 := by
  refine ⟨fun img c0 c1 c2 p0 p1 p2 cr pr => rfl, by decide, by decide, by decide⟩

/-- C6: a tile's stored representative colour is exactly the single pixel
of the original, unresized image composited onto opaque white (using the
image's own alpha as paste mask) and downsampled to 1×1 by the external
high-quality filter; fully transparent source pixels enter that composite
as opaque white, never as black or zero. -/
theorem c6_representative_colour (resize : Raster → Nat → Nat → Raster)
    (img : Raster) (size : Nat) (transp : Bool) :
    (Emoji.ofImage resize img size transp).colour
      = getpixel (resize (compositeOnWhite 255 img) 1 1) 0 0 ∧
    ∀ x y p, pixelAt img x y = some p → alphaOf p = 0 →
      pixelAt (compositeOnWhite 255 img) x y = some [255, 255, 255, 255] := by
  refine ⟨rfl, ?_⟩
  intro x y p hp ha
  exact compositeOnWhite_transparent 255 img x y p hp ha

/-- C6 witness: a fully transparent 1×1 tile source; its colour measurement
composite is opaque white at the transparent pixel. -/
theorem c6_representative_colour_witness :
    (Emoji.ofImage idResize demoTransparent 20 false).colour
      = getpixel (idResize (compositeOnWhite 255 demoTransparent) 1 1) 0 0 ∧
    pixelAt (compositeOnWhite 255 demoTransparent) 0 0 = some [255, 255, 255, 255] := by
  refine ⟨(c6_representative_colour idResize demoTransparent 20 false).1, ?_⟩
  exact (c6_representative_colour idResize demoTransparent 20 false).2 0 0
    [12, 34, 56, 0] rfl rfl

/-- C7 counterexample: on the demo font, `extract_emoji` itself creates the
`emoji` directory and writes an extracted stream to a file — extraction is
not free of filesystem side effects. -/
theorem c7_writes_counterexample :
    FsEffect.mkdirEmoji ∈ extractEmojiTrace false demoFont 1 ∧
    FsEffect.writeFile 0 (demoStream 1).bytes ∈ extractEmojiTrace false demoFont 1 := by
  unfold extractEmojiTrace
  rw [extractEmoji_demoFont]
  constructor
  · simp
  · simp [numberedWrites]

/-- C7 (amended): `extract_emoji` is not effect-free: it creates `./emoji`
exactly when the directory is absent, and its file writes are exactly the
extracted streams, numbered sequentially from 0 in scan order. -/
theorem c7_effects_characterised (d : Bool) (font : List Nat) (size : Nat) :
    (FsEffect.mkdirEmoji ∈ extractEmojiTrace d font size ↔ d = false) ∧
    (∀ n bs, FsEffect.writeFile n bs ∈ extractEmojiTrace d font size ↔
      (extractEmoji font size).1[n]? = some bs) := by
  unfold extractEmojiTrace
  constructor
  · rw [List.mem_append]
    constructor
    · rintro (hm | hm)
      · cases d
        · rfl
        · simp at hm
      · exact absurd hm (mkdir_not_mem_numberedWrites _ 0)
    · intro hd
      subst hd
      simp
  · intro n bs
    rw [List.mem_append]
    constructor
    · rintro (hm | hm)
      · cases d <;> simp at hm
      · have h := (mem_numberedWrites bs _ 0 n).mp hm
        simpa using h.2
    · intro hget
      right
      exact (mem_numberedWrites bs _ 0 n).mpr ⟨Nat.zero_le n, by simpa using hget⟩

/-- C7 witness: with the directory absent, the mkdir effect occurs. -/
theorem c7_effects_characterised_witness :
    FsEffect.mkdirEmoji ∈ extractEmojiTrace false demoFont 3 :=
  (c7_effects_characterised false demoFont 3).1.mpr rfl

/-- C8 counterexample: one undecodable tile among the sources makes the
whole palette construction raise (no palette at all), even though a valid
tile remains — there is no per-tile exclusion; the valid tile alone would
have produced a palette. -/
theorem c8_bad_tile_counterexample :
    buildPalette idResize 1 false [some [[[0, 0, 0, 255]]], none] = none ∧
    (buildPalette idResize 1 false [some [[[0, 0, 0, 255]]]]).isSome = true := by
  exact ⟨rfl, rfl⟩

/-- C8 (amended): a tile file that fails to decode aborts the entire run
(the exception propagates out of the palette comprehension); the palette is
built iff every tile source decodes, with no exclusion of bad tiles. -/
theorem c8_decode_failure_fatal (resize : Raster → Nat → Nat → Raster)
    (size : Nat) (transp : Bool) (sources : List (Option Raster)) :
    buildPalette resize size transp sources = none ↔ none ∈ sources :=
  buildPalette_none_iff resize size transp sources

/-- C8 witness: a single undecodable source aborts the construction. -/
theorem c8_decode_failure_fatal_witness :
    buildPalette idResize 1 false [none] = none :=
  (c8_decode_failure_fatal idResize 1 false [none]).mpr (by decide)

/-- C9 counterexample: a palette-mode source carrying PIL's real
transparency key `"transparency"` is NOT composited onto white — the
condition `"tran" in image.info` is a dict-key membership test and PIL
never stores a key `"tran"` — so its fully transparent pixel (12,34,56,0)
survives into the working image unflattened, while the claim predicts the
composite, whose pixel would be opaque white. -/
theorem c9_p_transparency_counterexample :
    (Picture.ofImage idThumbnail PilMode.P [transparencyKey] demoTransparent 512 20 true).image
      = demoTransparent ∧
    pixelAt demoTransparent 0 0 = some [12, 34, 56, 0] ∧
    pixelAt (compositeOnWhite 255 demoTransparent) 0 0 = some [255, 255, 255, 255] := by
  refine ⟨?_, rfl, by decide⟩
  show processImage idThumbnail PilMode.P [transparencyKey] demoTransparent 512
    = demoTransparent
  unfold processImage
  rw [if_neg (by decide)]
  rfl

/-- C9 (amended): `_process_image` never consults the keep-alpha flag, and
composites RGBA and LA sources onto opaque white using their own alpha as
mask, turning fully transparent pixels into opaque white (which passes the
252-skip threshold) before downsampling; but a palette-with-transparency
source is never composited, because the test `"tran" in image.info` is a
key-membership test on the info dict and PIL's key is `"transparency"`,
never `"tran"` — such sources pass to downsampling unflattened. -/
theorem c9_flatten_rgba_la_only (thumbnail : Raster → Nat → Raster)
    (mode : PilMode) (info : List (List Nat)) (img : Raster) (maxSize emojiSize : Nat) :
    (∀ t1 t2 : Bool,
      (Picture.ofImage thumbnail mode info img maxSize emojiSize t1).image
        = (Picture.ofImage thumbnail mode info img maxSize emojiSize t2).image) ∧
    ((mode = PilMode.RGBA ∨ mode = PilMode.LA) →
      (Picture.ofImage thumbnail mode info img maxSize emojiSize true).image
        = thumbnail (compositeOnWhite 255 img) maxSize) ∧
    (mode = PilMode.P → tranKey ∉ info →
      (Picture.ofImage thumbnail mode info img maxSize emojiSize true).image
        = thumbnail img maxSize) ∧
    (∀ x y p, pixelAt img x y = some p → alphaOf p = 0 →
      pixelAt (compositeOnWhite 255 img) x y = some [255, 255, 255, 255] ∧
      252 ≤ minChannel [255, 255, 255, 255]) := by
  refine ⟨fun t1 t2 => rfl, ?_, ?_, ?_⟩
  · intro hmode
    show processImage thumbnail mode info img maxSize
      = thumbnail (compositeOnWhite 255 img) maxSize
    unfold processImage
    rcases hmode with h | h
    · rw [if_pos (Or.inl h)]
    · rw [if_pos (Or.inr (Or.inl h))]
  · intro hmode htran
    show processImage thumbnail mode info img maxSize = thumbnail img maxSize
    unfold processImage
    subst hmode
    rw [if_neg]
    rintro (h | h | h)
    · cases h
    · cases h
    · exact htran h.2
  · intro x y p hp ha
    exact ⟨compositeOnWhite_transparent 255 img x y p hp ha, by decide⟩

/-- C9 witness: an RGBA source with a fully transparent pixel is flattened
(for both keep-alpha values); the same source tagged as palette mode with
PIL's real transparency key is left unflattened. -/
theorem c9_flatten_rgba_la_only_witness :
    (Picture.ofImage idThumbnail PilMode.RGBA [] demoTransparent 512 20 true).image
      = (Picture.ofImage idThumbnail PilMode.RGBA [] demoTransparent 512 20 false).image ∧
    (Picture.ofImage idThumbnail PilMode.RGBA [] demoTransparent 512 20 true).image
      = idThumbnail (compositeOnWhite 255 demoTransparent) 512 ∧
    (Picture.ofImage idThumbnail PilMode.P [transparencyKey] demoTransparent 512 20 true).image
      = idThumbnail demoTransparent 512 ∧
    pixelAt (compositeOnWhite 255 demoTransparent) 0 0 = some [255, 255, 255, 255] := by
  have h := c9_flatten_rgba_la_only idThumbnail PilMode.RGBA [] demoTransparent 512 20
  have h2 := c9_flatten_rgba_la_only idThumbnail PilMode.P [transparencyKey]
    demoTransparent 512 20
  exact ⟨h.1 true false, h.2.1 (Or.inl rfl), h2.2.2.1 rfl (by decide),
    (h.2.2.2 0 0 [12, 34, 56, 0] rfl rfl).1⟩

/-- C10: on an RGBA working image `get_pixel` yields 4-tuples, and the
skip test `min(colour) >= 252` ranges over the alpha channel too: a pixel
that is white in RGB but has alpha below 252 is not skipped and receives a
tile. -/
theorem c10_alpha_counted_in_skip (pal : List Emoji) (cache : Cache) (img : Raster)
    (x y : Nat) (p : Pixel) (r g b a : Nat) (hpal : pal ≠ [])
    (himg : ∀ row ∈ img, ∀ q ∈ row, q.length = 4)
    (hp : pixelAt img x y = some p) (hpx : p = [r, g, b, a])
    (hr : 252 ≤ r) (hg : 252 ≤ g) (hb : 252 ≤ b) (ha : a < 252) :
    p.length = 4 ∧ minChannel p < 252 ∧ placedTile pal cache p ≠ none := by
  have hrow : ∃ row, img[y]? = some row ∧ row[x]? = some p := by
    unfold pixelAt at hp
    cases hy : img[y]? with
    | none => rw [hy] at hp; cases hp
    | some row => rw [hy] at hp; exact ⟨row, rfl, hp⟩
  obtain ⟨row, hy, hx⟩ := hrow
  have hlen : p.length = 4 :=
    himg row (List.getElem?_mem hy) p (List.getElem?_mem hx)
  have hmin : ¬ 252 ≤ minChannel p := by
    intro hge
    have := (minChannel_ge_iff (by rw [hpx]; simp) 252).mp hge a (by rw [hpx]; simp)
    omega
  refine ⟨hlen, by omega, ?_⟩
  intro hnone
  exact hmin ((placedTile_none_iff pal cache p hpal).mp hnone)

/-- C10 witness: the pixel (255,255,255,0) is not skipped and is placed. -/
theorem c10_alpha_counted_in_skip_witness :
    minChannel [255, 255, 255, 0] < 252 ∧
    placedTile demoPal [] [255, 255, 255, 0] ≠ none := by
  have h := c10_alpha_counted_in_skip demoPal [] [[[255, 255, 255, 0]]] 0 0
    [255, 255, 255, 0] 255 255 255 0 (by decide) (by decide) rfl rfl
    (by decide) (by decide) (by decide) (by decide)
  exact ⟨h.2.1, h.2.2⟩

end Image2Emoji
